import Mathlib

/-!
Verification development for the source-based package manager core
(modules `upgrade.py`, `binpkg.py`, `build.py`, `fakeroot.py`, `remove.py`).

The Python code is shallowly embedded: pure helpers become Lean functions,
stateful operations become explicit state-passing functions, and the
filesystem / installed database are modelled as association lists.
Python string comparison (lexicographic by code point) is embedded as
`strLtL` on `List Char`; Python string methods are modelled over ASCII.
-/

/-- Python `a < b` on strings, on the underlying character lists:
lexicographic by code point. -/
def strLtL : List Char → List Char → Bool
  | _, [] => false
  | [], _ :: _ => true
  | a :: as, b :: bs => if a < b then true else if b < a then false else strLtL as bs

/-- Python `a < b` on strings. -/
def pyStrLt (a b : String) : Bool := strLtL a.data b.data

/-- Python `a > b` on strings (used by `install_binpkg`'s downgrade check). -/
def pyStrGt (a b : String) : Bool := pyStrLt b a

/-- Python `a <= b` on strings, as a proposition (for sortedness statements). -/
def strLe (a b : String) : Prop := pyStrLt b a = false

theorem strLtL_irrefl : ∀ a, strLtL a a = false := by
  intro a
  induction a with
  | nil => rfl
  | cons c cs ih => simp [strLtL, lt_irrefl, ih]

theorem strLtL_nil_right (a : List Char) : strLtL a [] = false := by
  cases a <;> rfl

theorem strLtL_asymm : ∀ a b, strLtL a b = true → strLtL b a = false := by
  intro a
  induction a with
  | nil => intro b _; exact strLtL_nil_right b
  | cons c cs ih =>
    intro b hab
    cases b with
    | nil => simp [strLtL] at hab
    | cons d ds =>
      simp only [strLtL] at hab ⊢
      rcases lt_trichotomy c d with h | h | h
      · simp [h, lt_asymm h]
      · subst h; simp_all [lt_irrefl]
      · simp [h, lt_asymm h] at hab

theorem strLtL_eq_of_not_lt : ∀ a b, strLtL a b = false → strLtL b a = false → a = b := by
  intro a
  induction a with
  | nil =>
    intro b hab _
    cases b with
    | nil => rfl
    | cons d ds => simp [strLtL] at hab
  | cons c cs ih =>
    intro b hab hba
    cases b with
    | nil => simp [strLtL] at hba
    | cons d ds =>
      simp only [strLtL] at hab hba
      rcases lt_trichotomy c d with h | h | h
      · simp [h] at hab
      · subst h
        simp only [lt_irrefl, if_false] at hab hba
        exact congrArg (c :: ·) (ih ds hab hba)
      · simp [h] at hba

theorem strLtL_trans : ∀ a b c, strLtL a b = true → strLtL b c = true → strLtL a c = true := by
  intro a
  induction a with
  | nil =>
    intro b c hab hbc
    cases b with
    | nil => simp [strLtL] at hab
    | cons y ys =>
      cases c with
      | nil => simp [strLtL_nil_right] at hbc
      | cons z zs => rfl
  | cons x xs ih =>
    intro b c hab hbc
    cases b with
    | nil => simp [strLtL] at hab
    | cons y ys =>
      cases c with
      | nil => simp [strLtL_nil_right] at hbc
      | cons z zs =>
        simp only [strLtL] at hab hbc ⊢
        rcases lt_trichotomy x y with hxy | hxy | hxy
        · rcases lt_trichotomy y z with hyz | hyz | hyz
          · simp [lt_trans hxy hyz]
          · subst hyz; simp [hxy]
          · simp [hyz, lt_asymm hyz] at hbc
        · subst hxy
          rcases lt_trichotomy x z with hxz | hxz | hxz
          · simp [hxz]
          · subst hxz
            simp only [lt_irrefl, if_false] at hab hbc ⊢
            exact ih ys zs hab hbc
          · simp [hxz, lt_asymm hxz] at hbc
        · simp [hxy, lt_asymm hxy] at hab

theorem string_eq_of_data (a b : String) (h : a.data = b.data) : a = b := by
  cases a; cases b; exact congrArg String.mk h

theorem strLtL_false_trans (a b c : List Char)
    (hba : strLtL b a = false) (hcb : strLtL c b = false) : strLtL c a = false := by
  by_contra hca
  have hca' : strLtL c a = true := by
    cases h : strLtL c a
    · exact absurd h hca
    · rfl
  by_cases hab : strLtL a b = true
  · have : strLtL c b = true := strLtL_trans _ _ _ hca' hab
    simp [this] at hcb
  · have heq : a = b := strLtL_eq_of_not_lt a b (Bool.eq_false_iff.mpr hab) hba
    subst heq
    simp [hca'] at hcb

instance : DecidableRel strLe := by
  intro a b
  unfold strLe
  infer_instance

instance : IsTotal String strLe := by
  constructor
  intro a b
  by_cases h : pyStrLt b a = true
  · right
    exact strLtL_asymm _ _ h
  · left
    exact Bool.eq_false_iff.mpr h

instance : IsTrans String strLe := by
  constructor
  intro a b c hab hbc
  exact strLtL_false_trans _ _ _ hab hbc

/-- Version tokens produced by `version_key` in `upgrade.py`: Python ints or strings. -/
inductive VTok
  | num (n : Nat)
  | str (s : String)
deriving DecidableEq

/-- Separator set of `re.split` in `version_key`: any of `.`, `-`, `_`, `+`. -/
def isSepChar (c : Char) : Bool := c == '.' || c == '-' || c == '_' || c == '+'

/-- Python `re.split` on the separator class: split keeping empty parts. -/
def splitParts : List Char → List (List Char)
  | [] => [[]]
  | c :: cs =>
    match splitParts cs with
    | [] => if isSepChar c then [[], []] else [[c]]
    | p :: ps => if isSepChar c then [] :: p :: ps else (c :: p) :: ps

/-- Python `str.strip()` (ASCII whitespace model). -/
def pyTrim (l : List Char) : List Char :=
  ((l.dropWhile Char.isWhitespace).reverse.dropWhile Char.isWhitespace).reverse

/-- The `s = s[1:]` step of `version_key`: drop a leading `v` followed by a digit
(`s.startswith("v") and re.match(r"v\d", s)`). -/
def stripLeadingV (l : List Char) : List Char :=
  match l with
  | 'v' :: c :: rest => if c.isDigit then c :: rest else l
  | _ => l

/-- Python `int(p)` on a digit string. -/
def digitsVal (l : List Char) : Nat :=
  l.foldl (fun acc c => acc * 10 + (c.toNat - '0'.toNat)) 0

def isAsciiLetter (c : Char) : Bool :=
  ('a' ≤ c && c ≤ 'z') || ('A' ≤ c && c ≤ 'Z')

/-- Match of `re.match(r'([a-zA-Z]+)(\d+)$', p)`: the part is a nonempty letter
run followed by a nonempty digit run. -/
def splitAlphaNum (p : List Char) : Option (List Char × List Char) :=
  let ls := p.takeWhile isAsciiLetter
  let rest := p.dropWhile isAsciiLetter
  if ls ≠ [] ∧ rest ≠ [] ∧ rest.all Char.isDigit then some (ls, rest) else none

/-- Per-part tokenization in `version_key`: digit parts become ints, a mixed
part like `rc12` splits into `"rc"` and `12` (group 1 is not lowercased), any
other part is lowercased. -/
def partToks (p : List Char) : List VTok :=
  if p ≠ [] ∧ p.all Char.isDigit then [VTok.num (digitsVal p)]
  else
    match splitAlphaNum p with
    | some (ls, ds) => [VTok.str (String.mk ls), VTok.num (digitsVal ds)]
    | none => [VTok.str (String.mk (p.map Char.toLower))]

/-- `version_key` from `upgrade.py` (string input). -/
def version_key (v : String) : List VTok :=
  ((splitParts (stripLeadingV (pyTrim v.data))).map partToks).flatten

/-- Comparison of one zipped token pair in `compare_versions`: same-kind tokens
compare naturally (strings by Python code-point order), and on a kind mismatch
an int sorts above a string. -/
def tokCmp : VTok → VTok → Int
  | VTok.num a, VTok.num b => if a < b then -1 else if b < a then 1 else 0
  | VTok.str a, VTok.str b => if pyStrLt a b then -1 else if pyStrLt b a then 1 else 0
  | VTok.num _, VTok.str _ => 1
  | VTok.str _, VTok.num _ => -1

/-- The `r == 0 or r == ""` padding test in `compare_versions`. -/
def isZeroTok : VTok → Bool
  | VTok.num 0 => true
  | VTok.str s => s == ""
  | _ => false

/-- The trailing-token scan of `compare_versions`: the leftover tokens of the
longer key yield `s` at the first token that is not zero/empty, else `0`. -/
def padSign (s : Int) : List VTok → Int
  | [] => 0
  | t :: ts => if isZeroTok t then padSign s ts else s

/-- The loop structure of `compare_versions` on two key lists: first differing
zipped pair decides; the leftover tokens of the longer key decide via the
zero/empty padding rule (`-1` when `b` is longer, `1` when `a` is longer). -/
def cmpKeys : List VTok → List VTok → Int
  | [], kb => padSign (-1) kb
  | x :: xs, [] => padSign 1 (x :: xs)
  | x :: xs, y :: ys => if tokCmp x y = 0 then cmpKeys xs ys else tokCmp x y

/-- `compare_versions` from `upgrade.py` (with its `None` handling). -/
def compare_versions : Option String → Option String → Int
  | none, none => 0
  | none, some _ => -1
  | some _, none => 1
  | some a, some b => cmpKeys (version_key a) (version_key b)

/-- `compare_versions` on two present version strings. -/
def compareVersions (a b : String) : Int := compare_versions (some a) (some b)

theorem tokCmp_antisym (x y : VTok) : tokCmp x y = - tokCmp y x := by
  cases x with
  | num a =>
    cases y with
    | num b =>
      simp only [tokCmp]
      rcases Nat.lt_trichotomy a b with h | h | h
      · simp [h, Nat.lt_asymm h]
      · subst h; simp
      · simp [h, Nat.lt_asymm h]
    | str b => rfl
  | str a =>
    cases y with
    | num b => rfl
    | str b =>
      simp only [tokCmp]
      by_cases h : pyStrLt a b = true
      · have hba := strLtL_asymm _ _ h
        have hba' : pyStrLt b a = false := hba
        simp [h, hba']
      · have h' : pyStrLt a b = false := Bool.eq_false_iff.mpr h
        by_cases h2 : pyStrLt b a = true
        · simp [h', h2]
        · have h2' : pyStrLt b a = false := Bool.eq_false_iff.mpr h2
          simp [h', h2']

theorem tokCmp_zero_symm (x y : VTok) (h : tokCmp x y = 0) : tokCmp y x = 0 := by
  have := tokCmp_antisym x y
  omega

theorem padSign_neg (s : Int) : ∀ l, padSign (-s) l = - padSign s l := by
  intro l
  induction l with
  | nil => simp [padSign]
  | cons t ts ih =>
    simp only [padSign]
    by_cases h : isZeroTok t = true
    · simp [h, ih]
    · simp [Bool.eq_false_iff.mpr h]

theorem cmpKeys_antisym : ∀ ka kb, cmpKeys ka kb = - cmpKeys kb ka := by
  intro ka
  induction ka with
  | nil =>
    intro kb
    cases kb with
    | nil => simp [cmpKeys, padSign]
    | cons y ys =>
      show padSign (-1) (y :: ys) = - padSign 1 (y :: ys)
      exact padSign_neg 1 (y :: ys)
  | cons x xs ih =>
    intro kb
    cases kb with
    | nil =>
      show padSign 1 (x :: xs) = - padSign (-1) (x :: xs)
      rw [padSign_neg 1 (x :: xs)]
      omega
    | cons y ys =>
      simp only [cmpKeys]
      by_cases h : tokCmp x y = 0
      · simp [h, tokCmp_zero_symm x y h, ih ys]
      · have hyx : tokCmp y x ≠ 0 := by
          intro h0
          exact h (tokCmp_zero_symm y x h0)
        simp [h, hyx, tokCmp_antisym x y]

/-- C2 (amended): `compare_versions` is antisymmetric (`cmp(a,b) = -cmp(b,a)`)
and pads shorter versions with zero/empty tokens (`1.2.0 == 1.2`); but it is
not transitive (see the counterexample). -/
theorem claim_C2 :
    (∀ a b : String, compareVersions a b = - compareVersions b a) ∧
    compareVersions "1.2.0" "1.2" = 0 := by
  constructor
  · intro a b
    exact cmpKeys_antisym (version_key a) (version_key b)
  · decide

/-- C2 counterexample: transitivity of `compare_versions` fails on the concrete
versions `1.x`, `1.0`, `1`: `cmp("1.x","1.0") ≤ 0` and `cmp("1.0","1") ≤ 0`,
yet `cmp("1.x","1") = 1 > 0`. -/
theorem claim_C2_counterexample :
    compareVersions "1.x" "1.0" ≤ 0 ∧ compareVersions "1.0" "1" ≤ 0 ∧
    compareVersions "1.x" "1" = 1 := by
  decide

theorem contains_iff_mem (l : List String) (a : String) : l.contains a = true ↔ a ∈ l := by
  simp

/-- `deps.get(n, [])` on the dependency map of `topo_levels` / `_levels_from_order`. -/
def depsOf (deps : List (String × List String)) (n : String) : List String :=
  match deps.find? (fun e => e.1 == n) with
  | some e => e.2
  | none => []

/-- Python `sorted()` on a collection of strings (code-point order). -/
def sortStrs (l : List String) : List String := List.insertionSort strLe l

/-- The ready scan of one `topo_levels` iteration: nodes of `remain`, in sorted
order, whose dependencies are all already built. -/
def readyList (deps : List (String × List String)) (built remain : List String) :
    List String :=
  (sortStrs remain).filter (fun n => (depsOf deps n).all (fun d => built.contains d))

/-- One `topo_levels` iteration's level: the ready nodes, or — cycle fallback —
all remaining nodes as one sorted level. -/
def levelChoice (deps : List (String × List String)) (built remain : List String) :
    List String :=
  let rdy := readyList deps built remain
  if rdy.isEmpty then sortStrs remain else rdy

/-- The `while remain` loop of `topo_levels`, with explicit fuel (the loop
strictly shrinks `remain`, so `remain.length` fuel is exact; see `claim_C9`). -/
def topoLoop (deps : List (String × List String)) :
    Nat → List String → List String → List (List String)
  | 0, _, _ => []
  | fuel + 1, built, remain =>
    if remain.isEmpty then []
    else
      let lvl := levelChoice deps built remain
      lvl :: topoLoop deps fuel (built ++ lvl) (remain.filter (fun n => !lvl.contains n))

/-- `UpgradeManager.topo_levels` from `upgrade.py`: `remain = set(nodes)` is
modelled by `nodes.dedup`. -/
def topo_levels (nodes : List String) (deps : List (String × List String)) :
    List (List String) :=
  topoLoop deps nodes.dedup.length [] nodes.dedup

theorem sortStrs_perm (l : List String) : List.Perm (sortStrs l) l :=
  List.perm_insertionSort strLe l

theorem sortStrs_mem (l : List String) (a : String) : a ∈ sortStrs l ↔ a ∈ l :=
  (sortStrs_perm l).mem_iff

theorem sortStrs_nodup (l : List String) (h : l.Nodup) : (sortStrs l).Nodup :=
  (sortStrs_perm l).symm.nodup h

theorem sortStrs_sorted (l : List String) : List.Pairwise strLe (sortStrs l) :=
  List.sorted_insertionSort strLe l

theorem sortStrs_ne_nil (l : List String) (h : l ≠ []) : sortStrs l ≠ [] := by
  intro hnil
  rcases List.exists_mem_of_ne_nil l h with ⟨x, hx⟩
  have : x ∈ sortStrs l := (sortStrs_mem l x).mpr hx
  simp [hnil] at this

theorem levelChoice_subset (deps : List (String × List String))
    (built remain : List String) (x : String) (hx : x ∈ levelChoice deps built remain) :
    x ∈ remain := by
  unfold levelChoice at hx
  by_cases h : (readyList deps built remain).isEmpty
  · rw [if_pos h] at hx
    exact (sortStrs_mem remain x).mp hx
  · rw [if_neg h] at hx
    unfold readyList at hx
    exact (sortStrs_mem remain x).mp (List.mem_filter.mp hx).1

theorem levelChoice_ne_nil (deps : List (String × List String))
    (built remain : List String) (h : remain ≠ []) :
    levelChoice deps built remain ≠ [] := by
  unfold levelChoice
  by_cases he : (readyList deps built remain).isEmpty
  · rw [if_pos he]
    exact sortStrs_ne_nil remain h
  · rw [if_neg he]
    intro hn
    rw [hn] at he
    simp at he

theorem levelChoice_nodup (deps : List (String × List String))
    (built remain : List String) (h : remain.Nodup) :
    (levelChoice deps built remain).Nodup := by
  unfold levelChoice
  by_cases he : (readyList deps built remain).isEmpty
  · rw [if_pos he]
    exact sortStrs_nodup remain h
  · rw [if_neg he]
    exact (sortStrs_nodup remain h).filter _

theorem levelChoice_sorted (deps : List (String × List String))
    (built remain : List String) :
    List.Pairwise strLe (levelChoice deps built remain) := by
  unfold levelChoice
  by_cases he : (readyList deps built remain).isEmpty
  · rw [if_pos he]
    exact sortStrs_sorted remain
  · rw [if_neg he]
    exact (sortStrs_sorted remain).filter _

theorem length_filter_lt_of_mem (l : List String) (p : String → Bool) (x : String)
    (hx : x ∈ l) (hpx : p x = false) : (l.filter p).length < l.length := by
  induction l with
  | nil => cases hx
  | cons y ys ih =>
    by_cases hy : p y = true
    · cases hx with
      | head => rw [hpx] at hy; cases hy
      | tail _ hx' =>
        simp only [List.filter_cons, hy, if_true, List.length_cons]
        have := ih hx'
        omega
    · have hy' : p y = false := Bool.eq_false_iff.mpr hy
      simp only [List.filter_cons, hy', Bool.false_eq_true, if_false, List.length_cons]
      have : (ys.filter p).length ≤ ys.length := ys.length_filter_le p
      omega

theorem topoLoop_progress (deps : List (String × List String))
    (built remain : List String) (h : remain ≠ []) :
    (remain.filter (fun n => !(levelChoice deps built remain).contains n)).length
      < remain.length := by
  have hlvl := levelChoice_ne_nil deps built remain h
  rcases List.exists_mem_of_ne_nil _ hlvl with ⟨x, hx⟩
  have hc : (levelChoice deps built remain).contains x = true :=
    (contains_iff_mem _ x).mpr hx
  have hpx : (fun n => !(levelChoice deps built remain).contains n) x = false := by
    simp only [hc, Bool.not_true]
  exact length_filter_lt_of_mem remain _ x (levelChoice_subset deps built remain x hx) hpx

theorem levelChoice_split_perm (deps : List (String × List String))
    (built remain : List String) (hnd : remain.Nodup) :
    List.Perm
      (levelChoice deps built remain
        ++ remain.filter (fun n => !(levelChoice deps built remain).contains n))
      remain := by
  have hperm1 : List.Perm (levelChoice deps built remain)
      (remain.filter (fun n => (levelChoice deps built remain).contains n)) := by
    apply (List.perm_ext_iff_of_nodup (levelChoice_nodup deps built remain hnd)
      (hnd.filter _)).mpr
    intro a
    constructor
    · intro ha
      exact List.mem_filter.mpr
        ⟨levelChoice_subset deps built remain a ha, (contains_iff_mem _ a).mpr ha⟩
    · intro ha
      exact (contains_iff_mem _ a).mp (List.mem_filter.mp ha).2
  have h2 := List.filter_append_perm
    (fun n => (levelChoice deps built remain).contains n) remain
  exact (List.Perm.append_right _ hperm1).trans h2

theorem topoLoop_flatten_perm (deps : List (String × List String)) :
    ∀ fuel built remain, remain.Nodup → remain.length ≤ fuel →
      List.Perm (topoLoop deps fuel built remain).flatten remain := by
  intro fuel
  induction fuel with
  | zero =>
    intro built remain _ hlen
    have : remain = [] := List.length_eq_zero.mp (Nat.le_zero.mp hlen)
    subst this
    simp [topoLoop]
  | succ fuel ih =>
    intro built remain hnd hlen
    by_cases hre : remain.isEmpty = true
    · have : remain = [] := List.isEmpty_iff.mp hre
      subst this
      simp [topoLoop]
    · have hne : remain ≠ [] := by
        intro h0; rw [h0] at hre; simp at hre
      have hstep : topoLoop deps (fuel + 1) built remain
          = levelChoice deps built remain
            :: topoLoop deps fuel (built ++ levelChoice deps built remain)
                 (remain.filter (fun n => !(levelChoice deps built remain).contains n)) := by
        simp only [topoLoop, hre, Bool.false_eq_true, if_false]
      rw [hstep]
      have hlt := topoLoop_progress deps built remain hne
      have hrec := ih (built ++ levelChoice deps built remain)
        (remain.filter (fun n => !(levelChoice deps built remain).contains n))
        (hnd.filter _) (by omega)
      rw [List.flatten_cons]
      exact ((List.Perm.append_left _ hrec).trans
        (levelChoice_split_perm deps built remain hnd))

theorem topoLoop_levels_sorted_nodup (deps : List (String × List String)) :
    ∀ fuel built remain, remain.Nodup →
      ∀ l ∈ topoLoop deps fuel built remain, List.Pairwise strLe l ∧ l.Nodup := by
  intro fuel
  induction fuel with
  | zero =>
    intro built remain _ l hl
    simp [topoLoop] at hl
  | succ fuel ih =>
    intro built remain hnd l hl
    by_cases hre : remain.isEmpty = true
    · simp [topoLoop, hre] at hl
    · have hstep : topoLoop deps (fuel + 1) built remain
          = levelChoice deps built remain
            :: topoLoop deps fuel (built ++ levelChoice deps built remain)
                 (remain.filter (fun n => !(levelChoice deps built remain).contains n)) := by
        simp only [topoLoop, hre, Bool.false_eq_true, if_false]
      rw [hstep] at hl
      cases hl with
      | head =>
        exact ⟨levelChoice_sorted deps built remain, levelChoice_nodup deps built remain hnd⟩
      | tail _ hl' =>
        exact ih (built ++ levelChoice deps built remain) _ (hnd.filter _) l hl'

theorem exists_min_rank (rank : String → Nat) :
    ∀ l : List String, l ≠ [] → ∃ u, u ∈ l ∧ ∀ w ∈ l, rank u ≤ rank w := by
  intro l
  induction l with
  | nil => intro h; cases h rfl
  | cons x xs ih =>
    intro _
    by_cases hxs : xs = []
    · subst hxs
      refine ⟨x, List.mem_singleton_self x, ?_⟩
      intro w hw
      cases hw with
      | head => exact le_rfl
      | tail _ h => cases h
    · rcases ih hxs with ⟨u, hu, hmin⟩
      by_cases hcmp : rank x ≤ rank u
      · refine ⟨x, List.mem_cons_self x xs, ?_⟩
        intro w hw
        cases hw with
        | head => exact le_rfl
        | tail _ hw' => exact le_trans hcmp (hmin w hw')
      · refine ⟨u, List.mem_cons_of_mem x hu, ?_⟩
        intro w hw
        cases hw with
        | head => omega
        | tail _ hw' => exact hmin w hw'

theorem readyList_ne_nil (deps : List (String × List String)) (rank : String → Nat)
    (built remain : List String) (hne : remain ≠ [])
    (hclosed : ∀ u ∈ remain, ∀ v ∈ depsOf deps u, v ∈ built ∨ v ∈ remain)
    (hrank : ∀ u ∈ remain, ∀ v ∈ depsOf deps u, v ∈ remain → rank v < rank u) :
    readyList deps built remain ≠ [] := by
  rcases exists_min_rank rank remain hne with ⟨u, hu, hmin⟩
  intro hnil
  have humem : u ∈ readyList deps built remain := by
    unfold readyList
    apply List.mem_filter.mpr
    refine ⟨(sortStrs_mem remain u).mpr hu, ?_⟩
    apply List.all_eq_true.mpr
    intro d hd
    rcases hclosed u hu d hd with hb | hr
    · exact (contains_iff_mem built d).mpr hb
    · have h1 := hrank u hu d hd hr
      have h2 := hmin d hr
      omega
  rw [hnil] at humem
  cases humem

theorem topoLoop_edge_order (deps : List (String × List String)) (rank : String → Nat) :
    ∀ fuel built remain, remain.length ≤ fuel → (built ++ remain).Nodup →
      (∀ u ∈ remain, ∀ v ∈ depsOf deps u, v ∈ built ∨ v ∈ remain) →
      (∀ u ∈ remain, ∀ v ∈ depsOf deps u, v ∈ remain → rank v < rank u) →
      ∀ j u, u ∈ (topoLoop deps fuel built remain).getD j [] →
        ∀ v ∈ depsOf deps u,
          v ∈ built ∨ ∃ i, i < j ∧ v ∈ (topoLoop deps fuel built remain).getD i [] := by
  intro fuel
  induction fuel with
  | zero =>
    intro built remain hlen _ _ _ j u hu v _
    simp [topoLoop, List.getD_nil] at hu
  | succ fuel ih =>
    intro built remain hlen hnd hclosed hrank j u hu v hv
    by_cases hre : remain.isEmpty = true
    · rw [show topoLoop deps (fuel + 1) built remain = [] by simp [topoLoop, hre]] at hu
      simp [List.getD_nil] at hu
    · have hne : remain ≠ [] := by
        intro h0; rw [h0] at hre; simp at hre
      have hndr : remain.Nodup := hnd.of_append_right
      have hrdy : readyList deps built remain ≠ [] :=
        readyList_ne_nil deps rank built remain hne hclosed hrank
      have hlvl : levelChoice deps built remain = readyList deps built remain := by
        unfold levelChoice
        rw [if_neg (by simpa [List.isEmpty_iff] using hrdy)]
      have hstep : topoLoop deps (fuel + 1) built remain
          = levelChoice deps built remain
            :: topoLoop deps fuel (built ++ levelChoice deps built remain)
                 (remain.filter (fun n => !(levelChoice deps built remain).contains n)) := by
        simp only [topoLoop, hre, Bool.false_eq_true, if_false]
      rw [hstep] at hu ⊢
      cases j with
      | zero =>
        left
        rw [List.getD_cons_zero, hlvl] at hu
        have hpred := (List.mem_filter.mp hu).2
        have := List.all_eq_true.mp hpred v hv
        exact (contains_iff_mem built v).mp this
      | succ j' =>
        rw [List.getD_cons_succ] at hu
        have hsplit := levelChoice_split_perm deps built remain hndr
        have hnd' : ((built ++ levelChoice deps built remain)
            ++ remain.filter (fun n => !(levelChoice deps built remain).contains n)).Nodup := by
          rw [List.append_assoc]
          exact ((List.Perm.append_left built hsplit).symm.nodup hnd)
        have hclosed' : ∀ u' ∈ remain.filter
              (fun n => !(levelChoice deps built remain).contains n),
            ∀ v' ∈ depsOf deps u',
              v' ∈ built ++ levelChoice deps built remain ∨
              v' ∈ remain.filter (fun n => !(levelChoice deps built remain).contains n) := by
          intro u' hu' v' hv'
          have hur : u' ∈ remain := (List.mem_filter.mp hu').1
          rcases hclosed u' hur v' hv' with hb | hr
          · exact Or.inl (List.mem_append.mpr (Or.inl hb))
          · by_cases hc : (levelChoice deps built remain).contains v' = true
            · exact Or.inl (List.mem_append.mpr (Or.inr ((contains_iff_mem _ v').mp hc)))
            · refine Or.inr (List.mem_filter.mpr ⟨hr, ?_⟩)
              simp only [Bool.not_eq_true']
              exact Bool.eq_false_iff.mpr hc
        have hrank' : ∀ u' ∈ remain.filter
              (fun n => !(levelChoice deps built remain).contains n),
            ∀ v' ∈ depsOf deps u',
              v' ∈ remain.filter (fun n => !(levelChoice deps built remain).contains n) →
              rank v' < rank u' := by
          intro u' hu' v' hv' hvr
          exact hrank u' (List.mem_filter.mp hu').1 v' hv' (List.mem_filter.mp hvr).1
        have hlen' : (remain.filter
            (fun n => !(levelChoice deps built remain).contains n)).length ≤ fuel := by
          have := topoLoop_progress deps built remain hne
          omega
        have hrec := ih (built ++ levelChoice deps built remain)
          (remain.filter (fun n => !(levelChoice deps built remain).contains n))
          hlen' hnd' hclosed' hrank' j' u hu v hv
        rcases hrec with hb | ⟨i, hi, hvi⟩
        · rcases List.mem_append.mp hb with h1 | h2
          · exact Or.inl h1
          · exact Or.inr ⟨0, Nat.succ_pos j', by rw [List.getD_cons_zero]; exact h2⟩
        · exact Or.inr ⟨i + 1, Nat.succ_lt_succ hi, by rw [List.getD_cons_succ]; exact hvi⟩

theorem countP_contains_of_count_zero (p : String) :
    ∀ L : List (List String), L.flatten.count p = 0 →
      L.countP (fun l => l.contains p) = 0 := by
  intro L
  induction L with
  | nil => intro _; rfl
  | cons l L' ih =>
    intro h
    rw [List.flatten_cons, List.count_append] at h
    have h1 : l.count p = 0 := by omega
    have h2 : L'.flatten.count p = 0 := by omega
    have hnc : l.contains p = false := by
      have hnm : p ∉ l := List.count_eq_zero.mp h1
      exact Bool.eq_false_iff.mpr (fun hc => hnm ((contains_iff_mem l p).mp hc))
    rw [List.countP_cons, hnc]
    simp only [Bool.false_eq_true, if_false, Nat.add_zero]
    exact ih h2

theorem countP_contains_of_count_one (p : String) :
    ∀ L : List (List String), L.flatten.count p = 1 →
      L.countP (fun l => l.contains p) = 1 := by
  intro L
  induction L with
  | nil => intro h; simp at h
  | cons l L' ih =>
    intro h
    rw [List.flatten_cons, List.count_append] at h
    by_cases hl : l.count p = 0
    · have h2 : L'.flatten.count p = 1 := by omega
      have hnm : p ∉ l := List.count_eq_zero.mp hl
      have hnc : l.contains p = false :=
        Bool.eq_false_iff.mpr (fun hc => hnm ((contains_iff_mem l p).mp hc))
      rw [List.countP_cons, hnc]
      simp only [Bool.false_eq_true, if_false, Nat.add_zero]
      exact ih h2
    · have hl1 : l.count p = 1 := by omega
      have h2 : L'.flatten.count p = 0 := by omega
      have hm : p ∈ l := by
        have : 0 < l.count p := by omega
        exact List.count_pos_iff.mp this
      have hc : l.contains p = true := (contains_iff_mem l p).mpr hm
      rw [List.countP_cons, hc]
      simp only [if_true]
      rw [countP_contains_of_count_zero p L' h2]

/-- C9: `topo_levels` is total and partitions its input. For every node list and
every dependency map — cycles included — every input package appears exactly
once across the emitted levels, every emitted name is an input package, and
each loop iteration removes at least one remaining node (so the loop
terminates). -/
theorem claim_C9 (nodes : List String) (deps : List (String × List String)) :
    (∀ p ∈ nodes, (topo_levels nodes deps).flatten.count p = 1) ∧
    (∀ p ∈ (topo_levels nodes deps).flatten, p ∈ nodes) ∧
    (∀ built remain : List String, remain ≠ [] →
      (remain.filter (fun n => !(levelChoice deps built remain).contains n)).length
        < remain.length) := by
  have hperm := topoLoop_flatten_perm deps nodes.dedup.length [] nodes.dedup
    nodes.nodup_dedup le_rfl
  refine ⟨?_, ?_, ?_⟩
  · intro p hp
    show (topoLoop deps nodes.dedup.length [] nodes.dedup).flatten.count p = 1
    rw [hperm.count_eq p]
    exact List.count_eq_one_of_mem nodes.nodup_dedup (List.mem_dedup.mpr hp)
  · intro p hp
    have hpd : p ∈ nodes.dedup := hperm.mem_iff.mp hp
    exact List.mem_dedup.mp hpd
  · intro built remain h
    exact topoLoop_progress deps built remain h

theorem claim_C9_witness :
    (topo_levels ["a", "b"] [("a", ["b"]), ("b", ["a"])]).flatten.count "a" = 1 ∧
    ((["b", "a"] : List String).filter
      (fun n => !(levelChoice [("a", ["b"]), ("b", ["a"])] [] ["b", "a"]).contains n)).length
      < (["b", "a"] : List String).length := by
  exact ⟨(claim_C9 ["a", "b"] [("a", ["b"]), ("b", ["a"])]).1 "a" (by decide),
    (claim_C9 ["a", "b"] [("a", ["b"]), ("b", ["a"])]).2.2 [] ["b", "a"] (by decide)⟩

/-- C6: for an acyclic dependency graph over the selected packages (witnessed
by a rank function decreasing along edges, all edges staying inside the
selection), `topo_levels` places every dependency in a strictly lower level
than its dependent, every level is sorted by Python string order and free of
duplicates, and each package occurs in exactly one level. -/
theorem claim_C6 (nodes : List String) (deps : List (String × List String))
    (rank : String → Nat)
    (hclosed : ∀ u ∈ nodes, ∀ v ∈ depsOf deps u, v ∈ nodes)
    (hrank : ∀ u ∈ nodes, ∀ v ∈ depsOf deps u, rank v < rank u) :
    (∀ u ∈ nodes, ∀ v ∈ depsOf deps u,
      ∃ i j, i < j ∧ v ∈ (topo_levels nodes deps).getD i []
        ∧ u ∈ (topo_levels nodes deps).getD j []) ∧
    (∀ l ∈ topo_levels nodes deps, List.Pairwise strLe l ∧ l.Nodup) ∧
    (∀ p ∈ nodes, (topo_levels nodes deps).countP (fun l => l.contains p) = 1) := by
  have hndd : nodes.dedup.Nodup := nodes.nodup_dedup
  have hperm := topoLoop_flatten_perm deps nodes.dedup.length [] nodes.dedup hndd le_rfl
  have hedge := topoLoop_edge_order deps rank nodes.dedup.length [] nodes.dedup le_rfl
    (by simpa using hndd)
    (by
      intro u hu v hv
      exact Or.inr (List.mem_dedup.mpr (hclosed u (List.mem_dedup.mp hu) v hv)))
    (by
      intro u hu v hv _
      exact hrank u (List.mem_dedup.mp hu) v hv)
  refine ⟨?_, ?_, ?_⟩
  · intro u hu v hv
    have hud : u ∈ nodes.dedup := List.mem_dedup.mpr hu
    have huf : u ∈ (topoLoop deps nodes.dedup.length [] nodes.dedup).flatten :=
      hperm.mem_iff.mpr hud
    rcases List.mem_flatten.mp huf with ⟨l, hlL, hul⟩
    rcases List.get_of_mem hlL with ⟨n, hn⟩
    have hgetd : (topoLoop deps nodes.dedup.length [] nodes.dedup).getD n.1 [] = l := by
      rw [List.getD_eq_getElem _ [] n.isLt]
      rw [← hn, List.get_eq_getElem]
    have huj : u ∈ (topoLoop deps nodes.dedup.length [] nodes.dedup).getD n.1 [] := by
      rw [hgetd]; exact hul
    rcases hedge n.1 u huj v hv with hnil | ⟨i, hi, hvi⟩
    · cases hnil
    · exact ⟨i, n.1, hi, hvi, huj⟩
  · intro l hl
    exact topoLoop_levels_sorted_nodup deps nodes.dedup.length [] nodes.dedup hndd l hl
  · intro p hp
    apply countP_contains_of_count_one
    show (topoLoop deps nodes.dedup.length [] nodes.dedup).flatten.count p = 1
    rw [hperm.count_eq p]
    exact List.count_eq_one_of_mem hndd (List.mem_dedup.mpr hp)

theorem claim_C6_witness :
    ∃ i j, i < j ∧
      "b" ∈ (topo_levels ["a", "b", "c"] [("a", ["b"]), ("b", ["c"])]).getD i [] ∧
      "a" ∈ (topo_levels ["a", "b", "c"] [("a", ["b"]), ("b", ["c"])]).getD j [] := by
  exact (claim_C6 ["a", "b", "c"] [("a", ["b"]), ("b", ["c"])]
    (fun s => if s = "a" then 2 else if s = "b" then 1 else 0)
    (by decide) (by decide)).1 "a" (by decide) "b" (by decide)

/-- Outcome of one spawned attempt inside `Fakeroot.run`: the child either
completes with an exit code and captured output, or times out. -/
inductive AttemptOut
  | timeout
  | completed (rc : Int) (stdout stderr : String)
deriving DecidableEq

/-- One `CommandResult` as appended to `Fakeroot.history` by `_process_result`. -/
structure HEntry where
  command : List String
  returncode : Int
  stdout : String
  stderr : String
deriving DecidableEq

/-- How `Fakeroot.run` ends: implicit `None` return when the loop never runs,
a returned `CommandResult`, a raised `FakerootError` (carrying the command and
the stderr text used in its message), or a re-raised `TimeoutExpired`. -/
inductive RunOutcome
  | retNone
  | ret (rc : Int) (stdout stderr : String)
  | errorRaised (command : List String) (stderr : String)
  | timeoutRaised
deriving DecidableEq

/-- The `while attempt < retries` loop of `Fakeroot.run`: `remaining` is
`retries - attempt`, `idx` numbers the attempts for the outcome oracle, and
`hist` is the history accumulated by `_process_result`. A completed attempt is
recorded and ends the loop (raising iff `rc != 0 and check`); a timed-out
attempt re-raises when no attempts remain and otherwise retries immediately
(the code sleeps between no attempts). -/
def runAttempts (cmd : List String) (check : Bool) (oracle : Nat → AttemptOut) :
    Nat → Nat → List HEntry → RunOutcome × List HEntry
  | 0, _, hist => (RunOutcome.retNone, hist)
  | remaining + 1, idx, hist =>
    match oracle idx with
    | AttemptOut.completed rc sout serr =>
      let hist' := hist ++ [⟨cmd, rc, sout, serr⟩]
      if rc ≠ 0 ∧ check = true then (RunOutcome.errorRaised cmd serr, hist')
      else (RunOutcome.ret rc sout serr, hist')
    | AttemptOut.timeout =>
      if remaining = 0 then (RunOutcome.timeoutRaised, hist)
      else runAttempts cmd check oracle remaining (idx + 1) hist

/-- `Fakeroot.run` for the `default` profile: `retries or profile["retries"]`
coerces a falsy `retries=0` to the profile default `1`; the attempt loop then
runs on a fresh history. -/
def fakerootRun (cmd : List String) (check : Bool) (retries : Nat)
    (oracle : Nat → AttemptOut) : RunOutcome × List HEntry :=
  let r := if retries = 0 then 1 else retries
  runAttempts cmd check oracle r 0 []

theorem runAttempts_spec (cmd : List String) (check : Bool)
    (oracle : Nat → AttemptOut) :
    ∀ remaining idx,
      (runAttempts cmd check oracle remaining idx []).2.length ≤ 1 ∧
      (∀ rc sout serr,
        (runAttempts cmd check oracle remaining idx []).1 = RunOutcome.ret rc sout serr →
        (runAttempts cmd check oracle remaining idx []).2 = [⟨cmd, rc, sout, serr⟩] ∧
          (rc = 0 ∨ check = false)) ∧
      (∀ c e, (runAttempts cmd check oracle remaining idx []).1
          = RunOutcome.errorRaised c e →
        c = cmd ∧ check = true ∧
          ∃ rc sout, rc ≠ 0 ∧
            (runAttempts cmd check oracle remaining idx []).2 = [⟨cmd, rc, sout, e⟩]) ∧
      ((runAttempts cmd check oracle remaining idx []).1 = RunOutcome.timeoutRaised →
        (runAttempts cmd check oracle remaining idx []).2 = []) := by
  intro remaining
  induction remaining with
  | zero =>
    intro idx
    refine ⟨by simp [runAttempts], ?_, ?_, ?_⟩
    · intro rc sout serr h; cases h
    · intro c e h; cases h
    · intro h; cases h
  | succ remaining ih =>
    intro idx
    cases hor : oracle idx with
    | completed rc sout serr =>
      by_cases hrc : rc ≠ 0 ∧ check = true
      · have hrun : runAttempts cmd check oracle (remaining + 1) idx []
            = (RunOutcome.errorRaised cmd serr, [⟨cmd, rc, sout, serr⟩]) := by
          simp [runAttempts, hor, hrc]
        rw [hrun]
        refine ⟨by simp, ?_, ?_, ?_⟩
        · intro rc' sout' serr' h; cases h
        · intro c e h
          cases h
          exact ⟨rfl, hrc.2, rc, sout, hrc.1, rfl⟩
        · intro h; cases h
      · have hrun : runAttempts cmd check oracle (remaining + 1) idx []
            = (RunOutcome.ret rc sout serr, [⟨cmd, rc, sout, serr⟩]) := by
          simp [runAttempts, hor, hrc]
        rw [hrun]
        refine ⟨by simp, ?_, ?_, ?_⟩
        · intro rc' sout' serr' h
          cases h
          constructor
          · rfl
          · by_cases h0 : rc = 0
            · exact Or.inl h0
            · right
              by_cases hc : check = true
              · exact absurd ⟨h0, hc⟩ hrc
              · exact Bool.eq_false_iff.mpr hc
        · intro c e h; cases h
        · intro h; cases h
    | timeout =>
      by_cases hrem : remaining = 0
      · have hrun : runAttempts cmd check oracle (remaining + 1) idx []
            = (RunOutcome.timeoutRaised, []) := by
          simp [runAttempts, hor, hrem]
        rw [hrun]
        refine ⟨by simp, ?_, ?_, ?_⟩
        · intro rc sout serr h; cases h
        · intro c e h; cases h
        · intro _; rfl
      · have hrun : runAttempts cmd check oracle (remaining + 1) idx []
            = runAttempts cmd check oracle remaining (idx + 1) [] := by
          simp [runAttempts, hor, hrem]
        rw [hrun]
        exact ih (idx + 1)

/-- C8 (amended): `Fakeroot.run` with `check=true` raises a `FakerootError`
carrying the command and stderr exactly when a completed attempt returns
non-zero — the first completed attempt always ends the loop, so at most one
attempt is ever recorded in the history and there is no backoff; only
timed-out attempts are retried (the final timeout re-raises with nothing
recorded); with `check=false` a non-zero exit does not raise. -/
theorem claim_C8 (cmd : List String) (check : Bool) (retries : Nat)
    (oracle : Nat → AttemptOut) :
    (fakerootRun cmd check retries oracle).2.length ≤ 1 ∧
    (∀ rc sout serr,
      (fakerootRun cmd check retries oracle).1 = RunOutcome.ret rc sout serr →
      (fakerootRun cmd check retries oracle).2 = [⟨cmd, rc, sout, serr⟩] ∧
        (rc = 0 ∨ check = false)) ∧
    (∀ c e, (fakerootRun cmd check retries oracle).1 = RunOutcome.errorRaised c e →
      c = cmd ∧ check = true ∧
        ∃ rc sout, rc ≠ 0 ∧
          (fakerootRun cmd check retries oracle).2 = [⟨cmd, rc, sout, e⟩]) ∧
    ((fakerootRun cmd check retries oracle).1 = RunOutcome.timeoutRaised →
      (fakerootRun cmd check retries oracle).2 = []) ∧
    ((oracle 0 = AttemptOut.timeout ∧ 2 ≤ retries) →
      fakerootRun cmd check retries oracle
        = runAttempts cmd check oracle (retries - 1) 1 []) := by
  have hs := runAttempts_spec cmd check oracle (if retries = 0 then 1 else retries) 0
  refine ⟨hs.1, hs.2.1, hs.2.2.1, hs.2.2.2, ?_⟩
  rintro ⟨hto, hge⟩
  have h0 : retries ≠ 0 := by omega
  unfold fakerootRun
  simp only [if_neg h0]
  rcases Nat.exists_eq_add_of_le hge with ⟨k, hk⟩
  have hr : retries = (k + 1) + 1 := by omega
  rw [hr]
  show runAttempts cmd check oracle (k + 1 + 1) 0 [] = _
  have : runAttempts cmd check oracle (k + 1 + 1) 0 []
      = runAttempts cmd check oracle (k + 1) 1 [] := by
    simp [runAttempts, hto]
  rw [this, show k + 1 + 1 - 1 = k + 1 from rfl]

theorem claim_C8_witness :
    (fakerootRun ["make"] true 1 (fun _ => AttemptOut.completed 0 "ok" "")).2
      = [⟨["make"], 0, "ok", ""⟩] := by
  exact ((claim_C8 ["make"] true 1
    (fun _ => AttemptOut.completed 0 "ok" "")).2.1 0 "ok" "" (by decide)).1

/-- C8 counterexample: with `check=true`, 3 requested attempts, and every
attempt completing with exit code 1, `Fakeroot.run` raises after recording a
single attempt — it does not retry the non-zero attempts (let alone back off
between them), contradicting the claim that it retries up to the requested
number of attempts and records each of them before raising on the final one. -/
theorem claim_C8_counterexample :
    (fakerootRun ["make"] true 3 (fun _ => AttemptOut.completed 1 "o" "e")).1
      = RunOutcome.errorRaised ["make"] "e" ∧
    (fakerootRun ["make"] true 3 (fun _ => AttemptOut.completed 1 "o" "e")).2.length
      = 1 := by
  decide

/-- The ASCII-safe character set of `shlex.quote`: word characters plus
the punctuation at-sign, percent, plus, equals, colon, comma, dot, slash,
hyphen. -/
def isSafeShellChar (c : Char) : Bool :=
  isAsciiLetter c || c.isDigit || c == '_' || c == '@' || c == '%' || c == '+' ||
  c == '=' || c == ':' || c == ',' || c == '.' || c == '/' || c == '-'

/-- The `s.replace("'", ...)` step of `shlex.quote`: each apostrophe becomes
the five-character close/escape/reopen sequence. -/
def shQuoteEscape : List Char → List Char
  | [] => []
  | c :: cs =>
    if c == '\x27' then
      '\x27' :: '\x22' :: '\x27' :: '\x22' :: '\x27' :: shQuoteEscape cs
    else c :: shQuoteEscape cs

/-- `shlex.quote`, as wrapped by `shlex_quote` in `remove.py`. -/
def shlex_quote (s : String) : String :=
  if s = "" then String.mk ['\x27', '\x27']
  else if s.data.all isSafeShellChar then s
  else String.mk ('\x27' :: shQuoteEscape s.data ++ ['\x27'])

/-- The `rm -rf` command `Remover.remove_files` issues for one path. -/
def rmCmd (p : String) : String := "rm -rf " ++ shlex_quote p

/-- `Remover.remove_files` from `remove.py`, as the list of deletion commands
it hands to the privileged executor: falsy entries are skipped
(`if not f: continue`), and so are the dangerous paths `"/"` and `""`
(`if path in ("/", ""): ... continue`). -/
def remove_files_cmds : List String → List String
  | [] => []
  | f :: rest =>
    if f == "" then remove_files_cmds rest
    else if f == "/" || f == "" then remove_files_cmds rest
    else rmCmd f :: remove_files_cmds rest

/-- C10: removal never targets the filesystem root — `remove_files` issues a
deletion command exactly for the file-list entries that are neither `"/"` nor
the empty string, so no `rm` is ever issued for `"/"` or `""` regardless of
the database contents. -/
theorem claim_C10 (files : List String) :
    remove_files_cmds files
      = (files.filter (fun f => !(f == "") && !(f == "/"))).map rmCmd ∧
    "/" ∉ files.filter (fun f => !(f == "") && !(f == "/")) ∧
    "" ∉ files.filter (fun f => !(f == "") && !(f == "/")) := by
  refine ⟨?_, ?_, ?_⟩
  · induction files with
    | nil => rfl
    | cons f rest ih =>
      by_cases h1 : f = ""
      · subst h1
        simp [remove_files_cmds, List.filter_cons, ih]
      · by_cases h2 : f = "/"
        · subst h2
          simp [remove_files_cmds, List.filter_cons, ih]
        · have hb1 : (f == "") = false := by
            simp [h1]
          have hb2 : (f == "/") = false := by
            simp [h2]
          simp [remove_files_cmds, List.filter_cons, hb1, hb2, ih]
  · intro hmem
    have := (List.mem_filter.mp hmem).2
    simp at this
  · intro hmem
    have := (List.mem_filter.mp hmem).2
    simp at this

theorem claim_C10_witness :
    remove_files_cmds ["/usr/bin/foo", "/", ""]
      = ((["/usr/bin/foo", "/", ""].filter
          (fun f => !(f == "") && !(f == "/"))).map rmCmd) ∧
    "/" ∉ ["/usr/bin/foo", "/", ""].filter (fun f => !(f == "") && !(f == "/")) :=
  ⟨(claim_C10 ["/usr/bin/foo", "/", ""]).1,
   (claim_C10 ["/usr/bin/foo", "/", ""]).2.1⟩

/-- The `metadata.json` document embedded in a binary package archive
(signature handling omitted; the digest is absent until embedded). -/
structure BinMeta where
  name : String
  version : String
  files : List String
  sha256 : Option Nat
deriving DecidableEq

/-- A binary package archive: its packaged file entries (arcname to content)
and its embedded metadata document. -/
structure BinArchive where
  entries : List (String × Nat)
  meta : BinMeta
deriving DecidableEq

/-- `BinPkgManager.create_binpkg`: package the sandbox files together with a
metadata document carrying no digest, compute the digest `h` of that initial
archive (`_sha256_of_file` on the temporary file), then rewrite the archive,
replacing the metadata with one embedding that digest. `h` stands for SHA-256
over the archive bytes. Returns the final archive as moved to disk. -/
def create_binpkg (h : BinArchive → Nat) (sandboxFiles : List (String × Nat))
    (name version : String) : BinArchive :=
  let files_list := sandboxFiles.map (fun e => e.1)
  let pkg_dirname := name ++ "-" ++ version
  let entries := sandboxFiles.map (fun e => (pkg_dirname ++ "/" ++ e.1, e.2))
  let metadata : BinMeta := ⟨name, version, sortStrs files_list, none⟩
  let initial : BinArchive := ⟨entries, metadata⟩
  let sha := h initial
  ⟨entries, { metadata with sha256 := some sha }⟩

/-- `BinPkgManager.verify_binpkg` without signature checking: recompute the
digest of the archive on disk and compare it with the declared one from the
embedded metadata; a missing declared digest fails. -/
def verify_binpkg (h : BinArchive → Nat) (ar : BinArchive) : Bool :=
  match ar.meta.sha256 with
  | none => false
  | some declared => h ar == declared

/-- C3 (code bug): the packaging / verification round-trip always fails.
`create_binpkg` embeds the digest of the initial archive — computed before the
digest is embedded — but the archive finally written to disk is the rewritten
one, whose metadata differs; `verify_binpkg` recomputes the digest of that
final archive. So whenever the digest function separates an archive without an
embedded digest from one with one (as a cryptographic hash of the bytes does,
collisions aside), the declared and recomputed digests disagree. -/
theorem claim_C3 (h : BinArchive → Nat)
    (hsep : ∀ a b : BinArchive, a.meta.sha256 = none → b.meta.sha256 ≠ none →
      h a ≠ h b)
    (sandboxFiles : List (String × Nat)) (name version : String) :
    verify_binpkg h (create_binpkg h sandboxFiles name version) = false := by
  have hne := hsep
    ⟨sandboxFiles.map (fun e => (name ++ "-" ++ version ++ "/" ++ e.1, e.2)),
      ⟨name, version, sortStrs (sandboxFiles.map (fun e => e.1)), none⟩⟩
    (create_binpkg h sandboxFiles name version)
    rfl
    (by simp [create_binpkg])
  show ((h (create_binpkg h sandboxFiles name version))
      == (h ⟨sandboxFiles.map (fun e => (name ++ "-" ++ version ++ "/" ++ e.1, e.2)),
          ⟨name, version, sortStrs (sandboxFiles.map (fun e => e.1)), none⟩⟩)) = false
  rw [beq_eq_false_iff_ne]
  exact fun hc => hne hc.symm

/-- A digest function that separates archives with and without an embedded
digest; it witnesses that the hypothesis of `claim_C3` is satisfiable. -/
def digestW (ar : BinArchive) : Nat := if ar.meta.sha256.isNone then 0 else 1

theorem claim_C3_witness :
    verify_binpkg digestW (create_binpkg digestW [("usr/bin/x", 1)] "foo" "1.0")
      = false := by
  apply claim_C3
  intro a b ha hb
  unfold digestW
  rw [ha]
  cases hsb : b.meta.sha256 with
  | none => exact absurd hsb hb
  | some d => simp [hsb]

/-- One record of the Installed Database, as written by `install_binpkg`. -/
structure IRecord where
  name : String
  version : String
  files : List String
deriving DecidableEq

/-- The live filesystem, as an association list from absolute path to file
content (contents abstracted as naturals). -/
abbrev FS := List (String × Nat)

/-- The Installed Database: package name to Installed Record. -/
abbrev DB := List (String × IRecord)

/-- Association-list lookup (`dict.get`). -/
def lookupA {α : Type} (l : List (String × α)) (k : String) : Option α :=
  match l.find? (fun e => e.1 == k) with
  | some e => some e.2
  | none => none

/-- Association-list update (`d[k] = v`). -/
def setA {α : Type} : List (String × α) → String → α → List (String × α)
  | [], k, v => [(k, v)]
  | e :: rest, k, v => if e.1 == k then (k, v) :: rest else e :: setA rest k v

/-- Association-list delete (`del d[k]` / `rm -rf` of a path). -/
def delA {α : Type} (l : List (String × α)) (k : String) : List (String × α) :=
  l.filter (fun e => !(e.1 == k))

/-- Python `rel.lstrip("/")`. -/
def lstripSlash (s : String) : String :=
  String.mk (s.data.dropWhile (fun c => c == '/'))

/-- Python `rel.startswith("/")`. -/
def startsWithSlash (s : String) : Bool :=
  match s.data with
  | c :: _ => c == '/'
  | [] => false

/-- Absolute destination path of one declared relative path:
`os.path.join("/", rel) if not rel.startswith("/") else rel`. -/
def absOfRel (rel : String) : String :=
  if startsWithSlash rel then rel else "/" ++ rel

/-- A binary package as `install_binpkg` sees it after verification and
extraction: the metadata's name, version and declared file list, and the
extracted temp-dir contents keyed by prefix-stripped relative path. -/
structure Pkg where
  name : String
  version : String
  files : List String
  contents : List (String × Nat)
deriving DecidableEq

/-- Lookup of `tmpdir/<rel.lstrip("/")>` among the extracted contents. -/
def pkgSrc (ar : Pkg) (rel : String) : Option Nat :=
  lookupA ar.contents (lstripSlash rel)

/-- How `install_binpkg` / `uninstall` end. -/
inductive IResult
  | alreadyInstalled
  | refusedDowngrade
  | installError
  | notInstalled
  | attrError
  | ok
deriving DecidableEq

/-- Filesystem plus Installed Database. -/
structure IState where
  fs : FS
  db : DB
deriving DecidableEq

/-- The per-file loop of `install_binpkg`. Each iteration computes the source
and destination paths and then builds the mkdir command by interpolating
`shutil.quote(dest_dir)` — and the `shutil` module has no `quote` attribute,
so the very first iteration raises `AttributeError` (before the dry-run
branch, before the privileged executor is ever invoked, and before anything
is copied). With a nonempty declared list the loop therefore raises having
copied nothing, and with an empty list it completes having copied nothing.
The per-destination failure oracle `stepFails` for the executor steps is
never consulted, because the quoting step raises first. Returns the
filesystem, `installed_files_abs`, and whether the loop raised. -/
def copyFilesLoop (ar : Pkg) (stepFails : String → Bool) :
    List String → FS → List String → FS × List String × Bool
  | [], fs, acc => (fs, acc.reverse, false)
  | _ :: _, fs, acc => (fs, acc.reverse, true)

/-- The pre-copy backup: each declared destination that currently exists is
saved with its content (the backup tarball of existing files). -/
def backupOf (fs : FS) (targets : List String) : List (String × Nat) :=
  targets.filterMap (fun p => (lookupA fs p).map (fun c => (p, c)))

/-- `BinPkgManager._restore_backup_to_root`: the rollback builds its tar
command by interpolating `shutil.quote(backup_path)`, and the `shutil` module
has no `quote` attribute, so it raises `AttributeError` before any extraction
runs; the caller catches the failure (logging that the rollback failed), so
the filesystem is left untouched and the backup contents are never
re-extracted. -/
def restore_backup_to_root (fs : FS) (b : List (String × Nat)) : FS :=
  fs

/-- The backup-and-copy phase of `install_binpkg`, after the Installed-DB
gate: back up the existing declared destinations, run the copy loop, and
either record the new Installed Record (the copy loop completes only for an
empty declared list, so the recorded file list is always empty) or — on the
copy error — attempt the rollback (which itself raises and restores nothing),
leave the DB unchanged, and surface the install error. -/
def installCopyPhase (st : IState) (ar : Pkg) (backup : Bool)
    (stepFails : String → Bool) : IResult × IState :=
  let targets := ar.files.map absOfRel
  let bkup : Option (List (String × Nat)) :=
    if backup && !targets.isEmpty then some (backupOf st.fs targets) else none
  match copyFilesLoop ar stepFails ar.files st.fs [] with
  | (fs1, _, true) =>
    let fs2 := match bkup with
      | some b => restore_backup_to_root fs1 b
      | none => fs1
    (IResult.installError, ⟨fs2, st.db⟩)
  | (fs1, copied, false) =>
    (IResult.ok, ⟨fs1, setA st.db ar.name ⟨ar.name, ar.version, copied⟩⟩)

/-- `BinPkgManager.install_binpkg` after successful verification and
extraction, on explicit state: consult the Installed DB (same-version refusal
unless `force`; downgrade refusal by Python string comparison unless
`allow_downgrade` or `force`), then run the backup-and-copy phase. -/
def install_binpkg (st : IState) (ar : Pkg) (force allow_downgrade backup : Bool)
    (stepFails : String → Bool) : IResult × IState :=
  let proceed : IResult × IState := installCopyPhase st ar backup stepFails
  match lookupA st.db ar.name with
  | some existing =>
    if existing.version == ar.version && !force then (IResult.alreadyInstalled, st)
    else if !allow_downgrade
        && (!(existing.version == "") && pyStrGt existing.version ar.version)
        && !force then
      (IResult.refusedDowngrade, st)
    else proceed
  | none => proceed

/-- `BinPkgManager.uninstall` on explicit state: look up the record; when
`remove_files` is set and the recorded file list is nonempty, the first
deletion command interpolates `shutil.quote(p)` and raises `AttributeError`
uncaught — before any file is removed and before the record deletion is
reached — leaving the state unchanged. Otherwise no deletion command runs,
and the Installed Record is deleted and persisted. The backup tarball and
hooks do not change fs/db state. -/
def uninstall (st : IState) (n : String) (remove_files : Bool) : IResult × IState :=
  match lookupA st.db n with
  | none => (IResult.notInstalled, st)
  | some entry =>
    if remove_files && !entry.files.isEmpty then (IResult.attrError, st)
    else (IResult.ok, ⟨st.fs, delA st.db n⟩)

theorem lookupA_setA_self {α : Type} (l : List (String × α)) (k : String) (v : α) :
    lookupA (setA l k v) k = some v := by
  induction l with
  | nil => simp [setA, lookupA, List.find?]
  | cons e rest ih =>
    by_cases h : e.1 = k
    · simp [setA, h, lookupA, List.find?]
    · have hb : (e.1 == k) = false := by simp [h]
      simp only [setA, hb, Bool.false_eq_true, if_false]
      simp only [lookupA, List.find?, hb]
      exact ih

theorem lookupA_setA_other {α : Type} (l : List (String × α)) (k q : String) (v : α)
    (h : q ≠ k) : lookupA (setA l k v) q = lookupA l q := by
  have hkq : (k == q) = false := by simp [Ne.symm h]
  induction l with
  | nil => simp [setA, lookupA, List.find?, hkq]
  | cons e rest ih =>
    by_cases he : e.1 = k
    · have hb : (e.1 == k) = true := by simp [he]
      have heq : (e.1 == q) = false := by
        rw [he]
        exact hkq
      simp [setA, hb, lookupA, List.find?, hkq, heq]
    · have hb : (e.1 == k) = false := by simp [he]
      simp only [setA, hb, Bool.false_eq_true, if_false]
      by_cases heq : e.1 = q
      · simp [lookupA, List.find?, heq]
      · have hbq : (e.1 == q) = false := by simp [heq]
        simp only [lookupA, List.find?, hbq]
        exact ih

theorem mem_backupOf (fs : FS) (targets : List String) (p : String) (c : Nat) :
    (p, c) ∈ backupOf fs targets ↔ p ∈ targets ∧ lookupA fs p = some c := by
  unfold backupOf
  rw [List.mem_filterMap]
  constructor
  · rintro ⟨a, ha, hfa⟩
    cases hla : lookupA fs a with
    | none => rw [hla] at hfa; cases hfa
    | some ca =>
      rw [hla] at hfa
      simp only [Option.map_some', Option.some.injEq, Prod.mk.injEq] at hfa
      obtain ⟨h1, h2⟩ := hfa
      subst h1
      subst h2
      exact ⟨ha, hla⟩
  · rintro ⟨hp, hl⟩
    exact ⟨p, hp, by rw [hl]; rfl⟩

/-- The two outcomes of the backup-and-copy phase: an empty declared file
list installs nothing and records an empty file list; a nonempty one raises
on its first copy iteration with filesystem and DB untouched. -/
theorem installCopyPhase_spec (st : IState) (ar : Pkg) (bk : Bool)
    (stepFails : String → Bool) :
    (ar.files = [] →
      installCopyPhase st ar bk stepFails
        = (IResult.ok, ⟨st.fs, setA st.db ar.name ⟨ar.name, ar.version, []⟩⟩)) ∧
    (ar.files ≠ [] →
      installCopyPhase st ar bk stepFails
        = (IResult.installError, ⟨st.fs, st.db⟩)) := by
  constructor
  · intro h
    unfold installCopyPhase
    rw [h]
    rfl
  · intro h
    unfold installCopyPhase
    cases hf : ar.files with
    | nil => exact absurd hf h
    | cons rel rest => cases bk <;> rfl

/-- All-or-nothing behaviour of the backup-and-copy phase with `backup=true`. -/
theorem installCopyPhase_allOrNothing (st : IState) (ar : Pkg)
    (stepFails : String → Bool) :
    ((installCopyPhase st ar true stepFails).1 = IResult.ok →
      lookupA (installCopyPhase st ar true stepFails).2.db ar.name
        = some ⟨ar.name, ar.version,
            (copyFilesLoop ar stepFails ar.files st.fs []).2.1⟩ ∧
      (∀ rel ∈ ar.files, ∀ c, pkgSrc ar rel = some c →
        lookupA (installCopyPhase st ar true stepFails).2.fs (absOfRel rel)
          = some c)) ∧
    ((installCopyPhase st ar true stepFails).1 = IResult.installError →
      (installCopyPhase st ar true stepFails).2.db = st.db ∧
      (installCopyPhase st ar true stepFails).2.fs = st.fs ∧
      (∀ p c, (p, c) ∈ backupOf st.fs (ar.files.map absOfRel) →
        lookupA (installCopyPhase st ar true stepFails).2.fs p = some c) ∧
      (∀ p, lookupA st.fs p = none →
        lookupA (installCopyPhase st ar true stepFails).2.fs p = none)) := by
  have hspec := installCopyPhase_spec st ar true stepFails
  cases hf : ar.files with
  | nil =>
    rw [hspec.1 hf]
    constructor
    · intro _
      refine ⟨lookupA_setA_self st.db ar.name ⟨ar.name, ar.version, []⟩, ?_⟩
      intro rel hrel c _
      exact absurd hrel (List.not_mem_nil rel)
    · intro hcontra
      simp at hcontra
  | cons rel rest =>
    rw [hspec.2 (by rw [hf]; exact List.cons_ne_nil rel rest)]
    constructor
    · intro hcontra
      simp at hcontra
    · intro _
      refine ⟨rfl, rfl, ?_, ?_⟩
      · intro p c hmem
        exact ((mem_backupOf st.fs ((rel :: rest).map absOfRel) p c).mp hmem).2
      · intro p hp
        exact hp

/-- C1: `install_binpkg` with `backup=true` is all-or-nothing per package —
degenerately so, because every iteration of the copy loop raises on the
`shutil.quote` interpolation before copying anything. On success the
Installed DB gains the record of the files actually copied (an install can
only succeed with an empty declared list, so that list is empty) and every
declared file present in the archive is in place; on an install error after
the backup step the DB is unchanged, the error is surfaced, and the
filesystem is bit-for-bit its pre-install state: every path saved in the
pre-install backup still holds its backed-up content (the state restoring
the backup would produce), and destination paths that did not exist before
the failed install do not exist after it. -/
theorem claim_C1 (st : IState) (ar : Pkg) (force ad : Bool)
    (stepFails : String → Bool) :
    ((install_binpkg st ar force ad true stepFails).1 = IResult.ok →
      lookupA (install_binpkg st ar force ad true stepFails).2.db ar.name
        = some ⟨ar.name, ar.version,
            (copyFilesLoop ar stepFails ar.files st.fs []).2.1⟩ ∧
      (∀ rel ∈ ar.files, ∀ c, pkgSrc ar rel = some c →
        lookupA (install_binpkg st ar force ad true stepFails).2.fs (absOfRel rel)
          = some c)) ∧
    ((install_binpkg st ar force ad true stepFails).1 = IResult.installError →
      (install_binpkg st ar force ad true stepFails).2.db = st.db ∧
      (install_binpkg st ar force ad true stepFails).2.fs = st.fs ∧
      (∀ p c, (p, c) ∈ backupOf st.fs (ar.files.map absOfRel) →
        lookupA (install_binpkg st ar force ad true stepFails).2.fs p = some c) ∧
      (∀ p, lookupA st.fs p = none →
        lookupA (install_binpkg st ar force ad true stepFails).2.fs p = none)) := by
  have hspec := installCopyPhase_allOrNothing st ar stepFails
  simp only [install_binpkg]
  cases hdb : lookupA st.db ar.name with
  | none => exact hspec
  | some existing =>
    by_cases h1 : (existing.version == ar.version && !force) = true
    · simp only [h1, if_true]
      exact ⟨fun h => absurd h (by decide), fun h => absurd h (by decide)⟩
    · simp only [Bool.eq_false_iff.mpr h1, Bool.false_eq_true, if_false]
      by_cases h2 : (!ad && (!(existing.version == "")
          && pyStrGt existing.version ar.version) && !force) = true
      · simp only [h2, if_true]
        exact ⟨fun h => absurd h (by decide), fun h => absurd h (by decide)⟩
      · simp only [Bool.eq_false_iff.mpr h2, Bool.false_eq_true, if_false]
        exact hspec

theorem claim_C1_witness :
    lookupA (install_binpkg ⟨[("/etc/old", 5)], []⟩
        ⟨"foo", "1.0", ["etc/old"], [("etc/old", 9)]⟩
        false false true (fun _ => true)).2.fs "/etc/old" = some 5 := by
  exact ((claim_C1 ⟨[("/etc/old", 5)], []⟩
      ⟨"foo", "1.0", ["etc/old"], [("etc/old", 9)]⟩
      false false (fun _ => true)).2 (by decide)).2.2.1 "/etc/old" 5 (by decide)

/-- C4 (amended): with an existing Installed Record, `install_binpkg` refuses a
same-version reinstall unless `force`, and refuses when the installed version
is greater than the artifact's by PYTHON STRING comparison — not the
section-4.10 token comparison — unless `allow_downgrade` (or `force`, which
also bypasses the downgrade check). In both refusal cases the filesystem and
the Installed DB are unchanged. -/
theorem claim_C4 (st : IState) (ar : Pkg) (stepFails : String → Bool)
    (existing : IRecord) (hdb : lookupA st.db ar.name = some existing) :
    (∀ ad bk : Bool, existing.version = ar.version →
      install_binpkg st ar false ad bk stepFails = (IResult.alreadyInstalled, st)) ∧
    (∀ bk : Bool, existing.version ≠ ar.version →
      pyStrGt existing.version ar.version = true →
      install_binpkg st ar false false bk stepFails
        = (IResult.refusedDowngrade, st)) := by
  constructor
  · intro ad bk hv
    simp only [install_binpkg, hdb]
    have h1 : (existing.version == ar.version && !false) = true := by
      simp [hv]
    rw [if_pos h1]
  · intro bk hne hgt
    simp only [install_binpkg, hdb]
    have h1 : (existing.version == ar.version && !false) = false := by
      simp
      exact hne
    rw [if_neg (show ¬((existing.version == ar.version && !false) = true) by
      rw [h1]; exact Bool.false_ne_true)]
    have hnn : (existing.version == "") = false := by
      apply Bool.eq_false_iff.mpr
      intro he
      have hv : existing.version = "" := by simpa using he
      rw [hv] at hgt
      unfold pyStrGt pyStrLt at hgt
      rw [show ("" : String).data = [] from rfl, strLtL_nil_right] at hgt
      cases hgt
    have h2 : (!false && (!(existing.version == "")
        && pyStrGt existing.version ar.version) && !false) = true := by
      simp [hnn, hgt]
    rw [if_pos h2]

/-- C4 counterexample: with `foo` version `10.0` installed and an artifact of
version `9.0`, the section-4.10 comparison says the installed version is
strictly newer (`compare_versions("10.0","9.0") = 1`), yet `install_binpkg`
with `allow_downgrade=false` and `force=false` proceeds and installs — the
code compares versions as Python strings, and `"10.0" > "9.0"` is false. -/
theorem claim_C4_counterexample :
    compareVersions "10.0" "9.0" = 1 ∧
    (install_binpkg ⟨[], [("foo", ⟨"foo", "10.0", []⟩)]⟩ ⟨"foo", "9.0", [], []⟩
      false false true (fun _ => false)).1 = IResult.ok := by
  decide

theorem claim_C4_witness :
    install_binpkg ⟨[], [("foo", ⟨"foo", "1.0", []⟩)]⟩ ⟨"foo", "1.0", [], []⟩
      false false true (fun _ => false)
      = (IResult.alreadyInstalled, ⟨[], [("foo", ⟨"foo", "1.0", []⟩)]⟩) := by
  exact (claim_C4 ⟨[], [("foo", ⟨"foo", "1.0", []⟩)]⟩ ⟨"foo", "1.0", [], []⟩
    (fun _ => false) ⟨"foo", "1.0", []⟩ (by decide)).1 false true rfl

theorem lookupA_delA_self {α : Type} (l : List (String × α)) (k : String) :
    lookupA (delA l k) k = none := by
  induction l with
  | nil => rfl
  | cons e rest ih =>
    unfold delA at ih ⊢
    rw [List.filter_cons]
    by_cases he : e.1 = k
    · rw [if_neg (show ¬((!(e.1 == k)) = true) by simp [he])]
      exact ih
    · rw [if_pos (show (!(e.1 == k)) = true by simp [he])]
      have hbq : (e.1 == k) = false := by simp [he]
      simp only [lookupA, List.find?, hbq]
      exact ih

theorem lookupA_delA_other {α : Type} (l : List (String × α)) (k q : String)
    (h : q ≠ k) : lookupA (delA l k) q = lookupA l q := by
  induction l with
  | nil => rfl
  | cons e rest ih =>
    unfold delA at ih ⊢
    rw [List.filter_cons]
    by_cases he : e.1 = k
    · rw [if_neg (show ¬((!(e.1 == k)) = true) by simp [he])]
      have heq : (e.1 == q) = false := by
        rw [he]
        simp [Ne.symm h]
      simp only [lookupA, List.find?, heq]
      exact ih
    · rw [if_pos (show (!(e.1 == k)) = true by simp [he])]
      by_cases heq : e.1 = q
      · simp [lookupA, List.find?, heq]
      · have hbq : (e.1 == q) = false := by simp [heq]
        simp only [lookupA, List.find?, hbq]
        exact ih

theorem lookupA_setA_cases {α : Type} (l : List (String × α)) (k q : String)
    (v w : α) (h : lookupA (setA l k v) q = some w) :
    w = v ∨ lookupA l q = some w := by
  by_cases hqk : q = k
  · subst hqk
    rw [lookupA_setA_self] at h
    exact Or.inl (Option.some.inj h).symm
  · rw [lookupA_setA_other l k q v hqk] at h
    exact Or.inr h

/-- The invariant every reachable Installed Database satisfies: each record
carries an empty file list — the only kind of record `install_binpkg` can
persist, since its copy loop raises before any path reaches
`installed_files_abs`. -/
def dbEmptyFiles (db : DB) : Prop :=
  ∀ n r, lookupA db n = some r → r.files = []

theorem installCopyPhase_emptyFiles (st : IState) (ar : Pkg) (bk : Bool)
    (stepFails : String → Bool) (h : dbEmptyFiles st.db) :
    dbEmptyFiles (installCopyPhase st ar bk stepFails).2.db := by
  have hspec := installCopyPhase_spec st ar bk stepFails
  cases hf : ar.files with
  | nil =>
    rw [hspec.1 hf]
    intro n r hn
    rcases lookupA_setA_cases st.db ar.name n ⟨ar.name, ar.version, []⟩ r hn
      with h1 | h2
    · rw [h1]
    · exact h n r h2
  | cons rel rest =>
    rw [hspec.2 (by rw [hf]; exact List.cons_ne_nil rel rest)]
    exact h

theorem install_binpkg_emptyFiles (st : IState) (ar : Pkg)
    (force ad bk : Bool) (stepFails : String → Bool) (h : dbEmptyFiles st.db) :
    dbEmptyFiles (install_binpkg st ar force ad bk stepFails).2.db := by
  have hcore := installCopyPhase_emptyFiles st ar bk stepFails h
  simp only [install_binpkg]
  cases hdb : lookupA st.db ar.name with
  | none => exact hcore
  | some existing =>
    by_cases h1 : (existing.version == ar.version && !force) = true
    · simp only [h1, if_true]
      exact h
    · simp only [Bool.eq_false_iff.mpr h1, Bool.false_eq_true, if_false]
      by_cases h2 : (!ad && (!(existing.version == "")
          && pyStrGt existing.version ar.version) && !force) = true
      · simp only [h2, if_true]
        exact h
      · simp only [Bool.eq_false_iff.mpr h2, Bool.false_eq_true, if_false]
        exact hcore

theorem uninstall_emptyFiles (st : IState) (n : String) (rf : Bool)
    (h : dbEmptyFiles st.db) : dbEmptyFiles (uninstall st n rf).2.db := by
  simp only [uninstall]
  cases hdb : lookupA st.db n with
  | none => exact h
  | some entry =>
    by_cases hc : (rf && !entry.files.isEmpty) = true
    · simp only [hc, if_true]
      exact h
    · simp only [Bool.eq_false_iff.mpr hc, Bool.false_eq_true, if_false]
      show dbEmptyFiles (delA st.db n)
      intro m r hm
      by_cases hmn : m = n
      · subst hmn
        rw [lookupA_delA_self st.db m] at hm
        cases hm
      · rw [lookupA_delA_other st.db n m hmn] at hm
        exact h m r hm

/-- One user-level operation on the installed system: a binary-package
install (with its flags) or an uninstall. -/
inductive PkgOp
  | install (ar : Pkg) (force allow_downgrade backup : Bool)
  | remove (n : String) (remove_files : Bool)

/-- Apply one operation to the state. -/
def applyOp (stepFails : String → Bool) (st : IState) : PkgOp → IState
  | PkgOp.install ar force allow_downgrade backup =>
    (install_binpkg st ar force allow_downgrade backup stepFails).2
  | PkgOp.remove n remove_files => (uninstall st n remove_files).2

/-- Apply a sequence of operations to the state. -/
def applyOps (stepFails : String → Bool) : IState → List PkgOp → IState
  | st, [] => st
  | st, op :: ops => applyOps stepFails (applyOp stepFails st op) ops

theorem applyOps_emptyFiles (stepFails : String → Bool) (ops : List PkgOp) :
    ∀ st : IState, dbEmptyFiles st.db →
      dbEmptyFiles (applyOps stepFails st ops).db := by
  induction ops with
  | nil =>
    intro st h
    exact h
  | cons op rest ih =>
    intro st h
    show dbEmptyFiles (applyOps stepFails (applyOp stepFails st op) rest).db
    apply ih
    cases op with
    | install ar force allow_downgrade backup =>
      exact install_binpkg_emptyFiles st ar force allow_downgrade backup stepFails h
    | remove n remove_files => exact uninstall_emptyFiles st n remove_files h

/-- C7: the Installed Database's per-record file lists form an owner map with
no double owner. After any sequence of `install_binpkg` / `uninstall`
operations starting from an empty Installed Database, no two distinct
Installed Records list a common path. The code satisfies this degenerately:
the copy loop raises before any path reaches `installed_files_abs`, so every
record an install can persist carries an empty file list, and `uninstall`
raises before deleting a record whenever it would first issue removal
commands for a nonempty file list — no reachable database has any record
owning a path at all, let alone two records sharing one. -/
theorem claim_C7 (stepFails : String → Bool) (fs0 : FS) (ops : List PkgOp) :
    ¬ ∃ (n1 n2 : String) (r1 r2 : IRecord) (p : String),
      lookupA (applyOps stepFails ⟨fs0, []⟩ ops).db n1 = some r1 ∧
      lookupA (applyOps stepFails ⟨fs0, []⟩ ops).db n2 = some r2 ∧
      n1 ≠ n2 ∧ p ∈ r1.files ∧ p ∈ r2.files := by
  rintro ⟨n1, n2, r1, r2, p, h1, h2, hne, hp1, hp2⟩
  have hinv : dbEmptyFiles (applyOps stepFails ⟨fs0, []⟩ ops).db := by
    apply applyOps_emptyFiles
    intro n r hn
    simp [lookupA, List.find?] at hn
  have hr1 := hinv n1 r1 h1
  rw [hr1] at hp1
  exact absurd hp1 (List.not_mem_nil p)

theorem claim_C7_witness :
    ¬ ∃ (n1 n2 : String) (r1 r2 : IRecord) (p : String),
      lookupA (applyOps (fun _ => false) ⟨[], []⟩
        [PkgOp.install ⟨"a", "1.0", ["usr/bin/x"], [("usr/bin/x", 1)]⟩
           false false true,
         PkgOp.install ⟨"b", "1.0", ["usr/bin/x"], [("usr/bin/x", 2)]⟩
           false false true]).db n1 = some r1 ∧
      lookupA (applyOps (fun _ => false) ⟨[], []⟩
        [PkgOp.install ⟨"a", "1.0", ["usr/bin/x"], [("usr/bin/x", 1)]⟩
           false false true,
         PkgOp.install ⟨"b", "1.0", ["usr/bin/x"], [("usr/bin/x", 2)]⟩
           false false true]).db n2 = some r2 ∧
      n1 ≠ n2 ∧ p ∈ r1.files ∧ p ∈ r2.files :=
  claim_C7 (fun _ => false) []
    [PkgOp.install ⟨"a", "1.0", ["usr/bin/x"], [("usr/bin/x", 1)]⟩
       false false true,
     PkgOp.install ⟨"b", "1.0", ["usr/bin/x"], [("usr/bin/x", 2)]⟩
       false false true]

/-- `BuildManager._cache_paths`: the metadata sidecar and archive paths for
`(name, fingerprint)` in the cache directory. -/
def cache_paths (cacheDir name fingerprint : String) : String × String :=
  (cacheDir ++ "/" ++ name ++ "-" ++ fingerprint ++ ".json",
   cacheDir ++ "/" ++ name ++ "-" ++ fingerprint ++ ".tar.gz")

/-- `BuildManager.fetch_remote_cache`: a stub that always returns `None`. -/
def fetch_remote_cache (name fingerprint : String) : Option String := none

/-- The first action of `_build_single`'s build path is constructing the
sandbox; the probe's event trace records it. -/
inductive BuildEvent
  | sandboxCreate (name : String)
deriving DecidableEq

/-- The outcome of `_build_single`'s cache probe. -/
inductive BuildRes
  | cacheHit (archive : String)
  | proceedToBuild
deriving DecidableEq

/-- The fingerprint / cache-probe head of `BuildManager._build_single`: when
remote caching is enabled, the (stub) remote fetch is consulted first; a local
cache hit — both the sidecar and the archive exist on disk — returns
immediately, before any sandbox is created or any build-system command runs
(empty event trace); otherwise the pipeline proceeds, beginning by creating
the sandbox. -/
def buildSingleProbe (remoteEnabled : Bool) (fsExist : String → Bool)
    (cacheDir name fingerprint : String) : BuildRes × List BuildEvent :=
  match (if remoteEnabled then fetch_remote_cache name fingerprint else none) with
  | some p => (BuildRes.cacheHit p, [])
  | none =>
    let mp := (cache_paths cacheDir name fingerprint).1
    let ap := (cache_paths cacheDir name fingerprint).2
    if fsExist mp && fsExist ap then (BuildRes.cacheHit ap, [])
    else (BuildRes.proceedToBuild, [BuildEvent.sandboxCreate name])

/-- C5: cache idempotence of the probe — `_build_single` returns a cache hit
pointing at the cached archive, with no sandbox created and no build-system
command invoked, exactly when both the archive `<name>-<fp>.tar.gz` and its
sidecar `<name>-<fp>.json` exist in the cache directory; since the remote
fetch is a stub returning `None`, this holds whether or not the remote cache
is enabled. -/
theorem claim_C5 (remoteEnabled : Bool) (fsExist : String → Bool)
    (cacheDir name fingerprint : String) :
    buildSingleProbe remoteEnabled fsExist cacheDir name fingerprint
      = (BuildRes.cacheHit (cache_paths cacheDir name fingerprint).2,
          ([] : List BuildEvent))
    ↔ (fsExist (cache_paths cacheDir name fingerprint).1 = true ∧
       fsExist (cache_paths cacheDir name fingerprint).2 = true) := by
  have hrm : (if remoteEnabled then fetch_remote_cache name fingerprint else none)
      = none := by
    cases remoteEnabled <;> rfl
  unfold buildSingleProbe
  rw [hrm]
  by_cases h1 : fsExist (cache_paths cacheDir name fingerprint).1 = true
  · by_cases h2 : fsExist (cache_paths cacheDir name fingerprint).2 = true
    · simp [h1, h2]
    · simp [h1, Bool.eq_false_iff.mpr h2]
  · simp [Bool.eq_false_iff.mpr h1]

theorem claim_C5_witness :
    buildSingleProbe false (fun _ => true) "build_cache" "foo" "abcd"
      = (BuildRes.cacheHit (cache_paths "build_cache" "foo" "abcd").2,
          ([] : List BuildEvent)) := by
  exact (claim_C5 false (fun _ => true) "build_cache" "foo" "abcd").mpr ⟨rfl, rfl⟩
